import Mathlib

/-!
Verification development for the cross-validation and model-selection engine
of the repository (src/utils.py).  The Python functions are shallowly embedded
as Lean functions; NumPy arrays become lists of rationals, the ambient random
permutations drawn by np.random.permutation are made explicit arguments, and
Python exceptions (assertion errors, zero-division, numpy value errors) become
Except values.
-/

/-- A matrix (NumPy 2-d array) as a list of rows of rationals. -/
abbrev Mat : Type := List (List ℚ)

/-- Entry K[i][j]; out-of-range reads yield 0 (never exercised on valid input). -/
def getEntry (K : Mat) (i j : ℕ) : ℚ := (K.getD i []).getD j 0

/-- NumPy-style Cartesian submatrix K[np.ix_(rows, cols)]. -/
def subMatrix (K : Mat) (rows cols : List ℕ) : Mat :=
  rows.map (fun i => cols.map (fun j => getEntry K i j))

/-- Fancy indexing Y[inds] of a label vector. -/
def subVec (Y : List Bool) (inds : List ℕ) : List Bool :=
  inds.map (fun i => Y.getD i false)

/-- A classifier, as in src/utils.py evaluate's contract: fit(K, Y) configures
the object and predict(K) then returns labels; modelled purely as a function
that maps the fit arguments to the resulting predict function. -/
def Classifier : Type := Mat → List Bool → (Mat → List Bool)

/-- Python ZeroDivisionError raised by subsample % k when k == 0. -/
def zeroDivMsg : String := "ZeroDivisionError: integer modulo by zero"

/-- Python AssertionError raised by assert (subsample % k == 0). -/
def assertMsg : String := "AssertionError: subsample % k == 0"

/-- NumPy ValueError raised by np.argmax on an empty array. -/
def argmaxEmptyMsg : String := "ValueError: attempt to get argmax of an empty sequence"

/-- Python IndexError from indexing params out of range. -/
def indexMsg : String := "IndexError: list index out of range"

/-- k_folds_indices from src/utils.py.  The permutation drawn by
np.random.permutation(n) is passed explicitly as perm (a list of length n);
subsample defaults to n at call sites.  Returns the k pairs
(train_inds, valid_inds); block i of size m = subsample / k is the validation
set of fold i and the remaining blocks, in permuted order, form its train set. -/
def k_folds_indices (perm : List ℕ) (k subsample : ℕ) :
    Except String (List (List ℕ × List ℕ)) :=
  if k = 0 then .error zeroDivMsg
  else if subsample % k ≠ 0 then .error assertMsg
  else
    .ok ((List.range k).map (fun i =>
      ((perm.take subsample).take (i * (subsample / k)) ++
         (perm.take subsample).drop ((i + 1) * (subsample / k)),
       ((perm.take subsample).drop (i * (subsample / k))).take (subsample / k))))

/-- Number of positions where two label vectors agree: (pred == y).sum(). -/
def countMatches (pred y : List Bool) : ℕ :=
  ((pred.zip y).filter (fun p => p.1 == p.2)).length

/-- Fraction of positions where two label vectors agree: (pred == y).mean(). -/
def matchMean (pred y : List Bool) : ℚ :=
  (countMatches pred y : ℚ) / ((pred.zip y).length : ℚ)

/-- The body of the inner fold loop of evaluate: fit on the train block of K,
then return the count of correct validation predictions and the mean train
accuracy for this fold. -/
def foldScore (c : Classifier) (K : Mat) (Y : List Bool)
    (fold : List ℕ × List ℕ) : ℕ × ℚ :=
  (countMatches
      (c (subMatrix K fold.1 fold.1) (subVec Y fold.1) (subMatrix K fold.2 fold.1))
      (subVec Y fold.2),
   matchMean
      (c (subMatrix K fold.1 fold.1) (subVec Y fold.1) (subMatrix K fold.1 fold.1))
      (subVec Y fold.1))

/-- One repeat of the k-fold loop of evaluate: accumulates valid_score (an
integer count) and train_score (a running sum of per-fold accuracies) over the
folds, then records valid_score / N and train_score / folds. -/
def repeatScores (c : Classifier) (K : Mat) (Y : List Bool) (folds : ℕ)
    (perm : List ℕ) : Except String (ℚ × ℚ) :=
  match k_folds_indices perm folds K.length with
  | .error e => .error e
  | .ok fs =>
      .ok ((((fs.foldl
        (fun a f => (a.1 + (foldScore c K Y f).1, a.2 + (foldScore c K Y f).2))
        ((0 : ℕ), (0 : ℚ))).1 : ℚ) / (K.length : ℚ)),
        ((fs.foldl
        (fun a f => (a.1 + (foldScore c K Y f).1, a.2 + (foldScore c K Y f).2))
        ((0 : ℕ), (0 : ℚ))).2 / (folds : ℚ)))

/-- np.mean of a list of rationals (0 on the empty list, as a total function). -/
def mean (xs : List ℚ) : ℚ := xs.sum / (xs.length : ℚ)

/-- Population variance (the ddof=0 default of np.std squared). -/
def pvariance (xs : List ℚ) : ℚ :=
  (xs.map (fun x => (x - mean xs) ^ 2)).sum / (xs.length : ℚ)

/-- np.std with its default ddof=0: square root of the population variance. -/
noncomputable def npStd (xs : List ℚ) : ℝ := Real.sqrt ((pvariance xs : ℚ) : ℝ)

/-- Sequential error-propagating map: the semantics of a Python for-loop that
appends f x for each x and lets any exception abort the whole loop. -/
def mapExcept {ε β γ : Type} (f : β → Except ε γ) : List β → Except ε (List γ)
  | [] => .ok []
  | x :: xs =>
    match f x with
    | .error e => .error e
    | .ok y =>
      match mapExcept f xs with
      | .error e => .error e
      | .ok ys => .ok (y :: ys)

/-- evaluate from src/utils.py.  perms i is the permutation drawn by
np.random.permutation inside k_folds_indices on repeat i; the repeat loop
collects per-repeat validation and train scores and the function returns their
mean and population standard deviation. -/
noncomputable def evaluate (c : Classifier) (K : Mat) (Y : List Bool)
    (folds repeats : ℕ) (perms : ℕ → List ℕ) :
    Except String (ℚ × ℝ × ℚ × ℝ) :=
  match mapExcept (fun i => repeatScores c K Y folds (perms i)) (List.range repeats) with
  | .error e => .error e
  | .ok l =>
      .ok (mean (l.map Prod.fst), npStd (l.map Prod.fst),
           mean (l.map Prod.snd), npStd (l.map Prod.snd))

/-- Maximum value of a list, none on the empty list. -/
def listMax {α : Type} [LinearOrder α] : List α → Option α
  | [] => none
  | x :: xs =>
    match listMax xs with
    | none => some x
    | some m => some (max x m)

/-- Index of the first occurrence of a value in a list. -/
def firstIdx {α : Type} [DecidableEq α] : List α → α → ℕ
  | [], _ => 0
  | x :: xs, a => if x = a then 0 else firstIdx xs a + 1

/-- np.argmax: index of the first occurrence of the maximum, none when empty. -/
def argmaxIdx {α : Type} [LinearOrder α] (xs : List α) : Option ℕ :=
  (listMax xs).map (firstIdx xs)

/-- The selection score of grid_search: valid_mean - valid_std. -/
noncomputable def scoreOf (r : ℚ × ℝ × ℚ × ℝ) : ℝ := ((r.1 : ℚ) : ℝ) - r.2.1

/-- grid_search from src/utils.py.  permSrc i gives the permutations used by
the i-th call to evaluate (calls 0 .. params.length - 1 are the selection
sweep, call params.length is the final re-evaluation with folds=20).  The
no_perfect branch reproduces the source exactly: the mask results[:, 2] < 1 is
applied to the results before np.argmax, but the resulting position is used to
index the unfiltered params list. -/
noncomputable def grid_search {P : Type} (model : P → Classifier) (params : List P)
    (K : Mat) (Y : List Bool) (folds repeats : ℕ) (no_perfect : Bool)
    (permSrc : ℕ → ℕ → List ℕ) :
    Except String (P × (ℚ × ℝ × ℚ × ℝ)) :=
  match mapExcept
      (fun ip => evaluate (model ip.2) K Y folds repeats (permSrc ip.1))
      params.enum with
  | .error e => .error e
  | .ok results =>
    match
      (if no_perfect then
        argmaxIdx ((results.filter (fun r => r.2.2.1 < 1)).map scoreOf)
      else
        argmaxIdx (results.map scoreOf)) with
    | none => .error argmaxEmptyMsg
    | some i =>
      match params.get? i with
      | none => .error indexMsg
      | some p =>
        match evaluate (model p) K Y 20 repeats (permSrc params.length) with
        | .error e => .error e
        | .ok fin => .ok (p, fin)

/-- The on-disk kernel cache: an association of kernel names to stored
(train kernels, test kernels) pairs. -/
abbrev Cache (κ : Type) : Type := List (String × (List κ × List κ))

/-- precomputed_kernels from src/utils.py, with the file system made explicit:
cache is the kernels directory, trainXs / testXs the data the loader would
produce, kernel1 / kernel2 the one- and two-argument forms of the kernel
callable.  Returns the kernel pair, the updated cache, and the number of
invocations of the kernel function (0 on a cache hit; one per train dataset
plus one per test dataset on a miss, submitted in dataset order). -/
def precomputed_kernels {δ κ : Type} (kernel1 : δ → κ) (kernel2 : δ → δ → κ)
    (name : String) (trainXs testXs : List δ) (cache : Cache κ) :
    ((List κ × List κ) × Cache κ × ℕ) :=
  match cache.lookup name with
  | some ks => (ks, cache, 0)
  | none =>
      ((trainXs.map kernel1,
        (testXs.zip trainXs).map (fun te => kernel2 te.1 te.2)),
       (name, (trainXs.map kernel1,
        (testXs.zip trainXs).map (fun te => kernel2 te.1 te.2))) :: cache,
       trainXs.length + testXs.length)

/-- Length of the shortest list, 0 when there are no lists: the number of
tuples produced by Python zip(*ls). -/
def minLen {κ : Type} (ls : List (List κ)) : ℕ :=
  match ls.map List.length with
  | [] => 0
  | x :: xs => xs.foldl min x

/-- Python zip(*ls): the i-th output is the list of i-th elements of the
input lists, for i below the length of the shortest input. -/
def zipAll {κ : Type} [Inhabited κ] (ls : List (List κ)) : List (List κ) :=
  (List.range (minLen ls)).map (fun i => ls.map (fun l => l.getD i default))

/-- transform_kernels from src/utils.py: unzip the (train, test) kernel pairs,
and apply transform to each dataset index together with the kernels of all
sources at that index, independently for train and for test. -/
def transform_kernels {κ : Type} [Inhabited κ]
    (kernels : List (List κ × List κ)) (transform : ℕ → List κ → κ) :
    List κ × List κ :=
  ((zipAll (kernels.map Prod.fst)).enum.map (fun p => transform p.1 p.2),
   (zipAll (kernels.map Prod.snd)).enum.map (fun p => transform p.1 p.2))

attribute [local semireducible] Rat.add Rat.mul Rat.inv Rat.sub

instance exceptDecEq {e a : Type} [DecidableEq e] [DecidableEq a] :
    DecidableEq (Except e a) := fun x y =>
  match x, y with
  | .error u, .error v =>
    if h : u = v then isTrue (by rw [h]) else isFalse (fun hh => by cases hh; exact h rfl)
  | .error _, .ok _ => isFalse (fun hh => by cases hh)
  | .ok _, .error _ => isFalse (fun hh => by cases hh)
  | .ok u, .ok v =>
    if h : u = v then isTrue (by rw [h]) else isFalse (fun hh => by cases hh; exact h rfl)

/-- Demo labels: 10 positive then 10 negative samples. -/
def demoY : List Bool := List.replicate 10 true ++ List.replicate 10 false

/-- Demo kernel matrix whose row i is constantly 1 when demoY i holds, else 0. -/
def demoK : Mat := demoY.map (fun b => List.replicate 20 (if b then (1 : ℚ) else 0))

/-- A classifier that reads the label encoded in the kernel row: perfect on demoK. -/
def oracle : Classifier := fun _ _ M => M.map (fun row => row.getD 0 0 == 1)

/-- A classifier that always predicts false. -/
def constFalse : Classifier := fun _ _ M => M.map (fun _ => false)

/-- A classifier that always predicts true. -/
def constTrue : Classifier := fun _ _ M => M.map (fun _ => true)

/-- Demo model factory on integer parameter codes. -/
def demoModel : ℕ → Classifier := fun p =>
  if p = 0 then oracle else if p = 2 then constTrue else constFalse

/-- Demo permutation source: every draw is the identity permutation of 20. -/
def demoPermSrc : ℕ → ℕ → List ℕ := fun _ _ => List.range 20

/-- Modelled directly from the spec text of 4.3 for claim C4 (refinement
target): within each repeat the validation score is the sum over folds of
correct-prediction counts divided by total N, and the train score is the
arithmetic mean (sum divided by the number of folds) of the per-fold train
accuracies. -/
def repeatScoresSpec (c : Classifier) (K : Mat) (Y : List Bool) (folds : ℕ)
    (perm : List ℕ) : Except String (ℚ × ℚ) :=
  match k_folds_indices perm folds K.length with
  | .error e => .error e
  | .ok fs =>
      .ok (((fs.map (fun f => ((foldScore c K Y f).1 : ℚ))).sum) / (K.length : ℚ),
           ((fs.map (fun f => (foldScore c K Y f).2)).sum) / (folds : ℚ))

/-- Modelled directly from the spec text of 4.3 for claim C4 (refinement
target): the returned 4-tuple is the mean and the population (ddof=0)
standard deviation across repeats of the per-repeat validation and train
scores of repeatScoresSpec. -/
noncomputable def evaluateSpec (c : Classifier) (K : Mat) (Y : List Bool)
    (folds repeats : ℕ) (perms : ℕ → List ℕ) :
    Except String (ℚ × ℝ × ℚ × ℝ) :=
  match mapExcept (fun i => repeatScoresSpec c K Y folds (perms i))
      (List.range repeats) with
  | .error e => .error e
  | .ok l =>
      .ok (mean (l.map Prod.fst), npStd (l.map Prod.fst),
           mean (l.map Prod.snd), npStd (l.map Prod.snd))

/-- Elementwise sum of two matrices (a concrete transform for the C9 witness). -/
def matAdd (A B : Mat) : Mat := List.zipWith (fun r s => List.zipWith (· + ·) r s) A B

/-- Elementwise sum of a list of matrices. -/
def matSum : List Mat → Mat
  | [] => []
  | k :: ks => ks.foldl matAdd k

theorem mapExcept_ok_of_forall {ε β γ : Type} (f : β → Except ε γ) (g : β → γ) :
    ∀ l : List β, (∀ b ∈ l, f b = .ok (g b)) → mapExcept f l = .ok (l.map g) := by
  intro l
  induction l with
  | nil => intro _; rfl
  | cons x xs ih =>
      intro h
      have hx := h x (by simp)
      have hxs := ih (fun b hb => h b (by simp [hb]))
      simp [mapExcept, hx, hxs]

theorem mapExcept_ok_mem {ε β γ : Type} (f : β → Except ε γ) :
    ∀ (l : List β) (ys : List γ), mapExcept f l = .ok ys →
      ∀ y ∈ ys, ∃ x ∈ l, f x = .ok y := by
  intro l
  induction l with
  | nil =>
      intro ys h y hy
      cases h
      simp at hy
  | cons x xs ih =>
      intro ys h y hy
      revert h
      cases hfx : f x with
      | error e => intro h; simp [mapExcept, hfx] at h
      | ok v =>
          cases hrest : mapExcept f xs with
          | error e => intro h; simp [mapExcept, hfx, hrest] at h
          | ok vs =>
              intro h
              simp [mapExcept, hfx, hrest] at h
              cases h
              rcases List.mem_cons.mp hy with hh | hh
              · exact ⟨x, by simp, by rw [hfx, hh]⟩
              · rcases ih vs hrest y hh with ⟨b, hb, hfb⟩
                exact ⟨b, by simp [hb], hfb⟩

theorem mapExcept_ok_length {ε β γ : Type} (f : β → Except ε γ) :
    ∀ (l : List β) (ys : List γ), mapExcept f l = .ok ys → ys.length = l.length := by
  intro l
  induction l with
  | nil => intro ys h; cases h; rfl
  | cons x xs ih =>
      intro ys h
      revert h
      cases hfx : f x with
      | error e => intro h; simp [mapExcept, hfx] at h
      | ok v =>
          cases hrest : mapExcept f xs with
          | error e => intro h; simp [mapExcept, hfx, hrest] at h
          | ok vs =>
              intro h
              simp [mapExcept, hfx, hrest] at h
              cases h
              simp [ih vs hrest]

theorem foldl_pair_sum {β M₁ M₂ : Type} [AddCommMonoid M₁] [AddCommMonoid M₂]
    (g₁ : β → M₁) (g₂ : β → M₂) :
    ∀ (l : List β) (a : M₁) (b : M₂),
      l.foldl (fun acc x => (acc.1 + g₁ x, acc.2 + g₂ x)) (a, b)
        = (a + (l.map g₁).sum, b + (l.map g₂).sum) := by
  intro l
  induction l with
  | nil => intro a b; simp
  | cons x xs ih =>
      intro a b
      simp only [List.foldl_cons, List.map_cons, List.sum_cons, ih]
      rw [Prod.mk.injEq]
      exact ⟨add_assoc a (g₁ x) _, add_assoc b (g₂ x) _⟩

theorem blocks_join {α : Type} (l : List α) (m : ℕ) :
    ∀ k : ℕ, ((List.range k).map (fun i => (l.drop (i * m)).take m)).flatten
      = l.take (k * m) := by
  intro k
  induction k with
  | zero => simp
  | succ n ih =>
      rw [List.range_succ, List.map_append, List.flatten_append, ih]
      simp only [List.map_cons, List.map_nil, List.flatten_cons, List.flatten_nil,
        List.append_nil]
      rw [Nat.succ_mul, List.take_add]

theorem listMax_eq_none {α : Type} [LinearOrder α] :
    ∀ xs : List α, listMax xs = none → xs = [] := by
  intro xs h
  cases xs with
  | nil => rfl
  | cons x t =>
      revert h
      cases hm : listMax t <;> simp [listMax, hm]

theorem listMax_mem {α : Type} [LinearOrder α] :
    ∀ (xs : List α) (m : α), listMax xs = some m → m ∈ xs := by
  intro xs
  induction xs with
  | nil => intro m h; cases h
  | cons x t ih =>
      intro m h
      cases hm : listMax t with
      | none => rw [listMax, hm] at h; cases h; simp
      | some m0 =>
          rw [listMax, hm] at h
          cases h
          rcases le_total x m0 with hx | hx
          · rw [max_eq_right hx]; simp [ih m0 hm]
          · rw [max_eq_left hx]; simp

theorem listMax_le {α : Type} [LinearOrder α] :
    ∀ (xs : List α) (m : α), listMax xs = some m → ∀ y ∈ xs, y ≤ m := by
  intro xs
  induction xs with
  | nil => intro m h; cases h
  | cons x t ih =>
      intro m h y hy
      cases hm : listMax t with
      | none =>
          rw [listMax, hm] at h
          cases h
          rcases List.mem_cons.mp hy with hh | hh
          · exact le_of_eq hh
          · rw [listMax_eq_none t hm] at hh; cases hh
      | some m0 =>
          rw [listMax, hm] at h
          cases h
          rcases List.mem_cons.mp hy with hh | hh
          · rw [hh]; exact le_max_left _ _
          · exact le_trans (ih m0 hm y hh) (le_max_right _ _)

theorem listMax_isSome {α : Type} [LinearOrder α] :
    ∀ xs : List α, xs ≠ [] → ∃ m, listMax xs = some m := by
  intro xs h
  cases hm : listMax xs with
  | none => exact absurd (listMax_eq_none xs hm) h
  | some m => exact ⟨m, rfl⟩

theorem firstIdx_eq {α : Type} [DecidableEq α] :
    ∀ (xs : List α) (i : ℕ) (hi : i < xs.length) (a : α),
      xs.get ⟨i, hi⟩ = a → (∀ j (hj : j < i), xs.get ⟨j, Nat.lt_trans hj hi⟩ ≠ a) →
      firstIdx xs a = i := by
  intro xs
  induction xs with
  | nil => intro i hi; cases hi
  | cons x t ih =>
      intro i hi a hget hbefore
      cases i with
      | zero =>
          simp only [List.get] at hget
          simp [firstIdx, hget]
      | succ i0 =>
          have hx : x ≠ a := hbefore 0 (Nat.succ_pos i0)
          have hi0 : i0 < t.length := Nat.lt_of_succ_lt_succ hi
          rw [firstIdx, if_neg hx]
          have := ih i0 hi0 a hget (fun j hj => hbefore (j + 1) (Nat.succ_lt_succ hj))
          omega

theorem firstIdx_lt_length {α : Type} [DecidableEq α] :
    ∀ (xs : List α) (a : α), a ∈ xs → firstIdx xs a < xs.length := by
  intro xs
  induction xs with
  | nil => intro a h; cases h
  | cons x t ih =>
      intro a h
      by_cases hx : x = a
      · simp [firstIdx, hx]
      · rcases List.mem_cons.mp h with hh | hh
        · exact absurd hh.symm hx
        · rw [firstIdx, if_neg hx]
          exact Nat.succ_lt_succ (ih a hh)

theorem argmaxIdx_eq_some {α : Type} [LinearOrder α] (xs : List α) (i : ℕ)
    (hi : i < xs.length)
    (hmax : ∀ j (hj : j < xs.length), xs.get ⟨j, hj⟩ ≤ xs.get ⟨i, hi⟩)
    (hfirst : ∀ j (hj : j < i), xs.get ⟨j, Nat.lt_trans hj hi⟩ < xs.get ⟨i, hi⟩) :
    argmaxIdx xs = some i := by
  have hne : xs ≠ [] := by
    intro h
    rw [h] at hi
    exact Nat.not_lt_zero i hi
  rcases listMax_isSome xs hne with ⟨m, hm⟩
  have hmem : m ∈ xs := listMax_mem xs m hm
  have h1 : m ≤ xs.get ⟨i, hi⟩ := by
    rcases List.mem_iff_get.mp hmem with ⟨⟨j, hj⟩, hget⟩
    rw [← hget]
    exact hmax j hj
  have h2 : xs.get ⟨i, hi⟩ ≤ m := listMax_le xs m hm _ (xs.get_mem _ _)
  have heq : xs.get ⟨i, hi⟩ = m := le_antisymm h2 h1
  rw [argmaxIdx, hm, Option.map_some']
  congr 1
  exact firstIdx_eq xs i hi m heq (fun j hj => ne_of_lt (heq ▸ hfirst j hj))

theorem argmaxIdx_lt_length {α : Type} [LinearOrder α] (xs : List α) (i : ℕ)
    (h : argmaxIdx xs = some i) : i < xs.length := by
  rw [argmaxIdx] at h
  cases hm : listMax xs with
  | none => rw [hm] at h; cases h
  | some m =>
      rw [hm, Option.map_some'] at h
      cases h
      exact firstIdx_lt_length xs m (listMax_mem xs m hm)

theorem argmaxIdx_isSome {α : Type} [LinearOrder α] (xs : List α) (h : xs ≠ []) :
    ∃ i, argmaxIdx xs = some i ∧ i < xs.length := by
  rcases listMax_isSome xs h with ⟨m, hm⟩
  refine ⟨firstIdx xs m, ?_, firstIdx_lt_length xs m (listMax_mem xs m hm)⟩
  rw [argmaxIdx, hm, Option.map_some']

theorem mean_singleton (q : ℚ) : mean [q] = q := by
  simp [mean]

theorem pvariance_singleton (q : ℚ) : pvariance [q] = 0 := by
  simp [pvariance, mean_singleton]

theorem npStd_singleton (q : ℚ) : npStd [q] = 0 := by
  rw [npStd, pvariance_singleton]
  simp

theorem mean_nonneg (xs : List ℚ) (h : ∀ x ∈ xs, 0 ≤ x) : 0 ≤ mean xs :=
  div_nonneg (List.sum_nonneg h) (Nat.cast_nonneg _)

theorem sum_le_length (xs : List ℚ) (h : ∀ x ∈ xs, x ≤ 1) :
    xs.sum ≤ (xs.length : ℚ) := by
  have := List.sum_le_card_nsmul xs 1 h
  rwa [nsmul_eq_mul, mul_one] at this

theorem mean_le_one (xs : List ℚ) (h : ∀ x ∈ xs, x ≤ 1) : mean xs ≤ 1 := by
  cases xs with
  | nil => simp [mean]
  | cons x t =>
      rw [mean, div_le_one (by exact_mod_cast Nat.succ_pos t.length)]
      exact sum_le_length _ h

theorem pvariance_nonneg (xs : List ℚ) : 0 ≤ pvariance xs := by
  refine div_nonneg (List.sum_nonneg ?_) (Nat.cast_nonneg _)
  intro x hx
  rcases List.mem_map.mp hx with ⟨y, _, hy⟩
  rw [← hy]
  exact sq_nonneg _

theorem pvariance_le_one (xs : List ℚ) (h : ∀ x ∈ xs, 0 ≤ x ∧ x ≤ 1) :
    pvariance xs ≤ 1 := by
  cases hxs : xs with
  | nil => simp [pvariance]
  | cons x t =>
      rw [← hxs]
      have hmean0 : 0 ≤ mean xs := mean_nonneg xs (fun x hx => (h x hx).1)
      have hmean1 : mean xs ≤ 1 := mean_le_one xs (fun x hx => (h x hx).2)
      have hsq : ∀ y ∈ xs.map (fun x => (x - mean xs) ^ 2), y ≤ 1 := by
        intro y hy
        rcases List.mem_map.mp hy with ⟨z, hz, hzy⟩
        rw [← hzy]
        rw [sq_le_one_iff_abs_le_one, abs_le]
        constructor
        · have := (h z hz).1
          linarith
        · have := (h z hz).2
          linarith
      have hsum := sum_le_length _ hsq
      rw [List.length_map] at hsum
      rw [pvariance, div_le_one]
      · exact hsum
      · rw [hxs]
        exact_mod_cast Nat.succ_pos t.length

theorem npStd_nonneg (xs : List ℚ) : 0 ≤ npStd xs := Real.sqrt_nonneg _

theorem npStd_le_one (xs : List ℚ) (h : ∀ x ∈ xs, 0 ≤ x ∧ x ≤ 1) : npStd xs ≤ 1 := by
  rw [npStd, Real.sqrt_le_one]
  exact_mod_cast pvariance_le_one xs h

theorem evaluate_one (c : Classifier) (K : Mat) (Y : List Bool) (folds : ℕ)
    (perms : ℕ → List ℕ) (v t : ℚ)
    (h : repeatScores c K Y folds (perms 0) = .ok (v, t)) :
    evaluate c K Y folds 1 perms = .ok (v, 0, t, 0) := by
  have hr : List.range 1 = [0] := rfl
  rw [evaluate, hr]
  simp [mapExcept, h, mean_singleton, npStd_singleton]

theorem repeatScores_oracle_2 :
    repeatScores oracle demoK demoY 2 (List.range 20) = .ok (1, 1) := by decide

theorem repeatScores_oracle_20 :
    repeatScores oracle demoK demoY 20 (List.range 20) = .ok (1, 1) := by decide

theorem repeatScores_cf_2 :
    repeatScores constFalse demoK demoY 2 (List.range 20) = .ok (1/2, 1/2) := by decide

theorem repeatScores_cf_20 :
    repeatScores constFalse demoK demoY 20 (List.range 20) = .ok (1/2, 1/2) := by decide

theorem repeatScores_ct_2 :
    repeatScores constTrue demoK demoY 2 (List.range 20) = .ok (1/2, 1/2) := by decide

theorem eval_oracle_2 (a : ℕ) :
    evaluate (demoModel 0) demoK demoY 2 1 (demoPermSrc a) = .ok (1, 0, 1, 0) :=
  evaluate_one _ _ _ _ _ _ _ repeatScores_oracle_2

theorem eval_oracle_20 (a : ℕ) :
    evaluate (demoModel 0) demoK demoY 20 1 (demoPermSrc a) = .ok (1, 0, 1, 0) :=
  evaluate_one _ _ _ _ _ _ _ repeatScores_oracle_20

theorem eval_cf_2 (a : ℕ) :
    evaluate (demoModel 1) demoK demoY 2 1 (demoPermSrc a) = .ok (1/2, 0, 1/2, 0) :=
  evaluate_one _ _ _ _ _ _ _ repeatScores_cf_2

theorem eval_cf_20 (a : ℕ) :
    evaluate (demoModel 1) demoK demoY 20 1 (demoPermSrc a) = .ok (1/2, 0, 1/2, 0) :=
  evaluate_one _ _ _ _ _ _ _ repeatScores_cf_20

theorem eval_ct_2 (a : ℕ) :
    evaluate (demoModel 2) demoK demoY 2 1 (demoPermSrc a) = .ok (1/2, 0, 1/2, 0) :=
  evaluate_one _ _ _ _ _ _ _ repeatScores_ct_2

theorem argmaxIdx_singleton {α : Type} [LinearOrder α] (x : α) :
    argmaxIdx [x] = some 0 := by
  simp [argmaxIdx, listMax, firstIdx]

/-- C1: evaluation of grid_search at a concrete failing input for the claim
that with noPerfect=True a configuration with train_mean == 1.0 is never
selected when a non-perfect alternative exists.  Parameter 0 (a classifier
with train_mean = 1) and parameter 1 (train_mean = 1/2 < 1) are swept; the
source filters the results by train_mean < 1 but indexes the unfiltered
params list with the argmax position of the filtered array, so it returns
parameter 0, whose training accuracy is perfect, although the non-perfect
parameter 1 was available. -/
theorem grid_search_noPerfect_selects_perfect_bug :
    (grid_search demoModel [0, 1] demoK demoY 2 1 true demoPermSrc).map Prod.fst
        = Except.ok 0
    ∧ evaluate (demoModel 0) demoK demoY 2 1 (demoPermSrc 0) = .ok (1, 0, 1, 0)
    ∧ evaluate (demoModel 1) demoK demoY 2 1 (demoPermSrc 1) = .ok (1/2, 0, 1/2, 0)
    ∧ ¬ ((1 : ℚ) < 1) ∧ ((1/2 : ℚ) < 1) := by
  refine ⟨?_, eval_oracle_2 0, eval_cf_2 1, by norm_num, by norm_num⟩
  have he : (([0, 1] : List ℕ)).enum = [(0, 0), (1, 1)] := rfl
  have hd1 : (decide ((1 : ℚ) < 1)) = false := by decide
  have hd2 : (decide ((1/2 : ℚ) < 1)) = true := by decide
  rw [grid_search]
  simp only [he, mapExcept, eval_oracle_2, eval_cf_2]
  simp only [List.filter, hd1, hd2, List.map, scoreOf, argmaxIdx_singleton,
    List.get?, eval_oracle_20, Except.map]
  simp only [if_true, List.length_cons, List.length_nil, List.get?, eval_oracle_20]

theorem append_sdiff_middle {α : Type} [DecidableEq α] (A V B : List α)
    (hnd : (A ++ (V ++ B)).Nodup) :
    (A ++ B).toFinset = (A ++ (V ++ B)).toFinset \ V.toFinset := by
  rcases List.nodup_append.mp hnd with ⟨-, hnd2, hdA⟩
  rcases List.nodup_append.mp hnd2 with ⟨-, -, hVB⟩
  ext x
  simp only [List.toFinset_append, Finset.mem_union, Finset.mem_sdiff,
    List.mem_toFinset]
  constructor
  · rintro (hA | hB)
    · exact ⟨Or.inl hA, fun hv => hdA hA (List.mem_append.mpr (Or.inl hv))⟩
    · exact ⟨Or.inr (Or.inr hB), fun hv => hVB hv hB⟩
  · rintro ⟨hin, hnv⟩
    rcases hin with h | h | h
    · exact Or.inl h
    · exact absurd h hnv
    · exact Or.inr h

/-- C2: for every n (the length of the drawn permutation), every k and every
subsample that is a multiple of k with subsample below n, the k pairs returned
by k_folds_indices have validation sets that are pairwise disjoint, whose
concatenation (hence union) equals the sampled index set, the first subsample
elements of the drawn permutation; and each train set equals the complement of
its validation set within that sampled set. -/
theorem k_folds_indices_partition (perm : List ℕ) (k subsample : ℕ)
    (folds : List (List ℕ × List ℕ))
    (hnodup : perm.Nodup) (hsub : subsample ≤ perm.length)
    (hok : k_folds_indices perm k subsample = .ok folds) :
    folds.length = k
    ∧ (folds.map Prod.snd).flatten = perm.take subsample
    ∧ (folds.map Prod.snd).Pairwise List.Disjoint
    ∧ ∀ i, i < folds.length →
        ((folds.getD i ([], [])).1).toFinset
          = (perm.take subsample).toFinset \ ((folds.getD i ([], [])).2).toFinset := by
  rw [k_folds_indices] at hok
  by_cases hk : k = 0
  · rw [if_pos hk] at hok; cases hok
  rw [if_neg hk] at hok
  by_cases hmod : subsample % k ≠ 0
  · rw [if_pos hmod] at hok; cases hok
  rw [if_neg hmod] at hok
  push_neg at hmod
  cases hok
  have hkm : k * (subsample / k) = subsample :=
    Nat.mul_div_cancel' (Nat.dvd_of_mod_eq_zero hmod)
  have hindnd : (perm.take subsample).Nodup :=
    (List.take_sublist subsample perm).nodup hnodup
  have hmapsnd :
      (((List.range k).map (fun i =>
          ((perm.take subsample).take (i * (subsample / k)) ++
             (perm.take subsample).drop ((i + 1) * (subsample / k)),
           ((perm.take subsample).drop (i * (subsample / k))).take (subsample / k)))).map
        Prod.snd)
      = (List.range k).map (fun i =>
          ((perm.take subsample).drop (i * (subsample / k))).take (subsample / k)) := by
    rw [List.map_map]
    rfl
  have hjoin :
      (((List.range k).map (fun i =>
          ((perm.take subsample).take (i * (subsample / k)) ++
             (perm.take subsample).drop ((i + 1) * (subsample / k)),
           ((perm.take subsample).drop (i * (subsample / k))).take (subsample / k)))).map
        Prod.snd).flatten = perm.take subsample := by
    rw [hmapsnd, blocks_join, hkm, List.take_take, min_self]
  refine ⟨by rw [List.length_map, List.length_range], hjoin, ?_, ?_⟩
  · have hfl : ((((List.range k).map (fun i =>
        ((perm.take subsample).take (i * (subsample / k)) ++
           (perm.take subsample).drop ((i + 1) * (subsample / k)),
         ((perm.take subsample).drop (i * (subsample / k))).take (subsample / k)))).map
        Prod.snd)).flatten.Nodup := by
      rw [hjoin]; exact hindnd
    exact (List.nodup_flatten.mp hfl).2
  · intro i hi
    rw [List.length_map, List.length_range] at hi
    have hget :
        (((List.range k).map (fun i =>
          ((perm.take subsample).take (i * (subsample / k)) ++
             (perm.take subsample).drop ((i + 1) * (subsample / k)),
           ((perm.take subsample).drop (i * (subsample / k))).take (subsample / k)))).getD
          i ([], []))
        = ((perm.take subsample).take (i * (subsample / k)) ++
             (perm.take subsample).drop ((i + 1) * (subsample / k)),
           ((perm.take subsample).drop (i * (subsample / k))).take (subsample / k)) := by
      rw [List.getD_eq_getElem?_getD, List.getElem?_map, List.getElem?_range hi]
      rfl
    rw [hget]
    have h3 : (((perm.take subsample).drop (i * (subsample / k))).drop (subsample / k))
        = (perm.take subsample).drop ((i + 1) * (subsample / k)) := by
      rw [List.drop_drop, Nat.succ_mul, Nat.add_comm]
    have heq : perm.take subsample =
        (perm.take subsample).take (i * (subsample / k)) ++
          (((perm.take subsample).drop (i * (subsample / k))).take (subsample / k) ++
            (perm.take subsample).drop ((i + 1) * (subsample / k))) := by
      rw [← h3, List.take_append_drop, List.take_append_drop]
    have hnd2 : ((perm.take subsample).take (i * (subsample / k)) ++
          (((perm.take subsample).drop (i * (subsample / k))).take (subsample / k) ++
            (perm.take subsample).drop ((i + 1) * (subsample / k)))).Nodup := by
      rw [← heq]; exact hindnd
    rw [show (perm.take subsample).toFinset
        = ((perm.take subsample).take (i * (subsample / k)) ++
          (((perm.take subsample).drop (i * (subsample / k))).take (subsample / k) ++
            (perm.take subsample).drop ((i + 1) * (subsample / k)))).toFinset
      from congrArg List.toFinset heq]
    exact append_sdiff_middle _ _ _ hnd2

/-- Witness for C2: the partition properties instantiated on the permutation
[3, 1, 0, 2] with k = 2 and subsample = 4. -/
theorem k_folds_indices_partition_witness :
    ([([0, 2], [3, 1]), ([3, 1], [0, 2])] : List (List ℕ × List ℕ)).length = 2
    ∧ ((([([0, 2], [3, 1]), ([3, 1], [0, 2])] : List (List ℕ × List ℕ)).map
        Prod.snd).flatten = [3, 1, 0, 2].take 4)
    ∧ (([([0, 2], [3, 1]), ([3, 1], [0, 2])] : List (List ℕ × List ℕ)).map
        Prod.snd).Pairwise List.Disjoint
    ∧ (([0, 2] : List ℕ).toFinset
        = ([3, 1, 0, 2].take 4).toFinset \ ([3, 1] : List ℕ).toFinset)
    ∧ (([3, 1] : List ℕ).toFinset
        = ([3, 1, 0, 2].take 4).toFinset \ ([0, 2] : List ℕ).toFinset) := by
  have h := k_folds_indices_partition [3, 1, 0, 2] 2 4
      [([0, 2], [3, 1]), ([3, 1], [0, 2])] (by decide) (by decide) (by decide)
  exact ⟨h.1, h.2.1, h.2.2.1, h.2.2.2 0 (by decide), h.2.2.2 1 (by decide)⟩

/-- C3: for every permutation, k and subsample with subsample % k nonzero
(and k nonzero, so that the Python modulo itself is defined), k_folds_indices
fails immediately with the assertion error, producing no fold pair. -/
theorem k_folds_indices_not_divisible_error (perm : List ℕ) (k subsample : ℕ)
    (hk : k ≠ 0) (h : subsample % k ≠ 0) :
    k_folds_indices perm k subsample = .error assertMsg := by
  rw [k_folds_indices, if_neg hk, if_pos h]

/-- Witness for C3: n = 3, k = 2, subsample = 3. -/
theorem k_folds_indices_not_divisible_error_witness :
    (2 ≠ 0 ∧ 3 % 2 ≠ 0)
    ∧ k_folds_indices [0, 1, 2] 2 3 = .error assertMsg :=
  ⟨by decide, k_folds_indices_not_divisible_error [0, 1, 2] 2 3
    (by decide) (by decide)⟩

theorem repeatScores_eq_spec (c : Classifier) (K : Mat) (Y : List Bool)
    (folds : ℕ) (perm : List ℕ) :
    repeatScores c K Y folds perm = repeatScoresSpec c K Y folds perm := by
  rw [repeatScores, repeatScoresSpec]
  cases k_folds_indices perm folds K.length with
  | error e => rfl
  | ok fs =>
      dsimp only
      rw [foldl_pair_sum (fun f => (foldScore c K Y f).1)
        (fun f => (foldScore c K Y f).2) fs 0 0]
      simp only [zero_add]
      rw [Nat.cast_list_sum, List.map_map]
      rfl

/-- C4: the returned tuple of evaluate coincides, for every classifier, kernel
matrix, labels, fold count, repeat count and drawn permutations, with the
spec-side description: per repeat, validation score = summed correct counts
over folds divided by N and train score = arithmetic mean of per-fold train
accuracies; the result is the mean and population (ddof=0) standard deviation
of these across repeats. -/
theorem evaluate_eq_spec (c : Classifier) (K : Mat) (Y : List Bool)
    (folds repeats : ℕ) (perms : ℕ → List ℕ) :
    evaluate c K Y folds repeats perms = evaluateSpec c K Y folds repeats perms := by
  rw [evaluate, evaluateSpec]
  rw [show (fun i => repeatScores c K Y folds (perms i))
      = (fun i => repeatScoresSpec c K Y folds (perms i))
    from funext (fun i => repeatScores_eq_spec c K Y folds (perms i))]

theorem countMatches_le (pred y : List Bool) :
    countMatches pred y ≤ (pred.zip y).length :=
  List.length_filter_le _ _

theorem matchMean_bounds (pred y : List Bool) :
    0 ≤ matchMean pred y ∧ matchMean pred y ≤ 1 := by
  constructor
  · exact div_nonneg (Nat.cast_nonneg _) (Nat.cast_nonneg _)
  · rw [matchMean]
    cases hz : (pred.zip y).length with
    | zero => simp
    | succ n =>
        rw [div_le_one (by exact_mod_cast Nat.succ_pos n)]
        have := countMatches_le pred y
        rw [hz] at this
        exact_mod_cast this

theorem repeatScores_bounds (c : Classifier) (K : Mat) (Y : List Bool)
    (folds : ℕ) (perm : List ℕ) (v t : ℚ)
    (hok : repeatScores c K Y folds perm = .ok (v, t)) :
    (0 ≤ v ∧ v ≤ 1) ∧ (0 ≤ t ∧ t ≤ 1) := by
  rw [repeatScores] at hok
  rcases hkf : k_folds_indices perm folds K.length with e | fs
  · rw [hkf] at hok; cases hok
  rw [hkf] at hok
  dsimp only at hok
  rw [foldl_pair_sum (fun f => (foldScore c K Y f).1)
    (fun f => (foldScore c K Y f).2) fs 0 0] at hok
  simp only [zero_add] at hok
  cases hok
  -- characterize the folds
  rw [k_folds_indices] at hkf
  by_cases hk : folds = 0
  · rw [if_pos hk] at hkf; cases hkf
  rw [if_neg hk] at hkf
  by_cases hmod : K.length % folds ≠ 0
  · rw [if_pos hmod] at hkf; cases hkf
  rw [if_neg hmod] at hkf
  push_neg at hmod
  cases hkf
  have hkm : folds * (K.length / folds) = K.length :=
    Nat.mul_div_cancel' (Nat.dvd_of_mod_eq_zero hmod)
  constructor
  · constructor
    · exact div_nonneg (Nat.cast_nonneg _) (Nat.cast_nonneg _)
    · -- each fold contributes at most m = K.length / folds correct predictions
      have hsum : (((List.range folds).map (fun i =>
          ((perm.take K.length).take (i * (K.length / folds)) ++
             (perm.take K.length).drop ((i + 1) * (K.length / folds)),
           ((perm.take K.length).drop (i * (K.length / folds))).take
             (K.length / folds)))).map (fun f => (foldScore c K Y f).1)).sum
          ≤ K.length := by
        have hbnd : ∀ x ∈ (((List.range folds).map (fun i =>
            ((perm.take K.length).take (i * (K.length / folds)) ++
               (perm.take K.length).drop ((i + 1) * (K.length / folds)),
             ((perm.take K.length).drop (i * (K.length / folds))).take
               (K.length / folds)))).map (fun f => (foldScore c K Y f).1)),
            x ≤ K.length / folds := by
          intro x hx
          rcases List.mem_map.mp hx with ⟨f, hf, hfx⟩
          rcases List.mem_map.mp hf with ⟨i, _, hif⟩
          rw [← hfx, ← hif]
          calc (foldScore c K Y _).1
              ≤ _ := countMatches_le _ _
            _ ≤ _ := by
                rw [List.length_zip]
                exact le_trans (min_le_right _ _) (by
                  rw [subVec, List.length_map]
                  exact le_trans (List.length_take_le _ _) (le_refl _))
        have := List.sum_le_card_nsmul _ _ hbnd
        rw [List.length_map, List.length_map, List.length_range, smul_eq_mul] at this
        rw [hkm] at this
        exact this
      by_cases hN : K.length = 0
      · rw [hN]
        norm_num
      · rw [div_le_one (by exact_mod_cast Nat.pos_of_ne_zero hN)]
        exact_mod_cast hsum
  · constructor
    · refine div_nonneg (List.sum_nonneg ?_) (Nat.cast_nonneg _)
      intro x hx
      rcases List.mem_map.mp hx with ⟨f, _, hfx⟩
      rw [← hfx]
      exact (matchMean_bounds _ _).1
    · have hbnd : ∀ x ∈ (((List.range folds).map (fun i =>
          ((perm.take K.length).take (i * (K.length / folds)) ++
             (perm.take K.length).drop ((i + 1) * (K.length / folds)),
           ((perm.take K.length).drop (i * (K.length / folds))).take
             (K.length / folds)))).map (fun f => (foldScore c K Y f).2)),
          x ≤ 1 := by
        intro x hx
        rcases List.mem_map.mp hx with ⟨f, _, hfx⟩
        rw [← hfx]
        exact (matchMean_bounds _ _).2
      have hsum := sum_le_length _ hbnd
      rw [List.length_map, List.length_map, List.length_range] at hsum
      rw [div_le_one (by exact_mod_cast Nat.pos_of_ne_zero hk)]
      exact hsum

/-- C5: for every classifier, kernel matrix, labels, fold count, repeat count
of at least one and drawn permutations on which evaluate succeeds, all four
components of the returned tuple lie in the interval from 0 to 1; in
particular the two standard-deviation components are non-negative. -/
theorem evaluate_bounds (c : Classifier) (K : Mat) (Y : List Bool)
    (folds repeats : ℕ) (perms : ℕ → List ℕ) (r : ℚ × ℝ × ℚ × ℝ)
    (hrep : 1 ≤ repeats)
    (hok : evaluate c K Y folds repeats perms = .ok r) :
    (0 ≤ r.1 ∧ r.1 ≤ 1) ∧ (0 ≤ r.2.1 ∧ r.2.1 ≤ 1)
    ∧ (0 ≤ r.2.2.1 ∧ r.2.2.1 ≤ 1) ∧ (0 ≤ r.2.2.2 ∧ r.2.2.2 ≤ 1) := by
  rw [evaluate] at hok
  rcases hm : mapExcept (fun i => repeatScores c K Y folds (perms i))
      (List.range repeats) with e | l
  · rw [hm] at hok; cases hok
  rw [hm] at hok
  dsimp only at hok
  cases hok
  have helem : ∀ y ∈ l, (0 ≤ y.1 ∧ y.1 ≤ 1) ∧ (0 ≤ y.2 ∧ y.2 ≤ 1) := by
    intro y hy
    rcases mapExcept_ok_mem _ _ _ hm y hy with ⟨i, _, hfi⟩
    exact repeatScores_bounds c K Y folds (perms i) y.1 y.2 hfi
  have hv : ∀ x ∈ l.map Prod.fst, 0 ≤ x ∧ x ≤ 1 := by
    intro x hx
    rcases List.mem_map.mp hx with ⟨y, hy, hyx⟩
    rw [← hyx]
    exact (helem y hy).1
  have ht : ∀ x ∈ l.map Prod.snd, 0 ≤ x ∧ x ≤ 1 := by
    intro x hx
    rcases List.mem_map.mp hx with ⟨y, hy, hyx⟩
    rw [← hyx]
    exact (helem y hy).2
  exact ⟨⟨mean_nonneg _ (fun x hx => (hv x hx).1),
          mean_le_one _ (fun x hx => (hv x hx).2)⟩,
         ⟨npStd_nonneg _, npStd_le_one _ hv⟩,
         ⟨mean_nonneg _ (fun x hx => (ht x hx).1),
          mean_le_one _ (fun x hx => (ht x hx).2)⟩,
         ⟨npStd_nonneg _, npStd_le_one _ ht⟩⟩

/-- Witness for C5: the bounds instantiated on the 20-sample demo data with
the constantly-false classifier, 2 folds and 1 repeat. -/
theorem evaluate_bounds_witness :
    (1 ≤ 1)
    ∧ evaluate (demoModel 1) demoK demoY 2 1 (demoPermSrc 0) = .ok (1/2, 0, 1/2, 0)
    ∧ ((0 ≤ (1/2 : ℚ) ∧ (1/2 : ℚ) ≤ 1) ∧ (0 ≤ (0 : ℝ) ∧ (0 : ℝ) ≤ 1)
       ∧ (0 ≤ (1/2 : ℚ) ∧ (1/2 : ℚ) ≤ 1) ∧ (0 ≤ (0 : ℝ) ∧ (0 : ℝ) ≤ 1)) :=
  ⟨le_refl 1, eval_cf_2 0,
   evaluate_bounds (demoModel 1) demoK demoY 2 1 (demoPermSrc 0)
     (1/2, 0, 1/2, 0) (le_refl 1) (eval_cf_2 0)⟩

/-- C6: with no_perfect false, grid_search selects the configuration at the
least index attaining the maximal selection score valid_mean - valid_std: it
is a stable argmax, so among tied configurations the one occurring earliest
in the parameter list wins. -/
theorem grid_search_stable_argmax {P : Type} (model : P → Classifier)
    (params : List P) (K : Mat) (Y : List Bool) (folds repeats : ℕ)
    (permSrc : ℕ → ℕ → List ℕ) (res : ℕ → ℚ × ℝ × ℚ × ℝ) (i : ℕ) (p : P)
    (fin : ℚ × ℝ × ℚ × ℝ)
    (hres : ∀ j (hj : j < params.length),
        evaluate (model (params.get ⟨j, hj⟩)) K Y folds repeats (permSrc j)
          = .ok (res j))
    (hi : i < params.length)
    (hp : params.get ⟨i, hi⟩ = p)
    (hmax : ∀ j, j < params.length → scoreOf (res j) ≤ scoreOf (res i))
    (hfirst : ∀ j, j < i → scoreOf (res j) < scoreOf (res i))
    (hfin : evaluate (model p) K Y 20 repeats (permSrc params.length) = .ok fin) :
    grid_search model params K Y folds repeats false permSrc = .ok (p, fin) := by
  have hmapeq : mapExcept
      (fun ip => evaluate (model ip.2) K Y folds repeats (permSrc ip.1))
      params.enum = .ok (params.enum.map (fun ip => res ip.1)) := by
    apply mapExcept_ok_of_forall
    intro b hb
    have hb2 : (b.1, b.2) ∈ params.enum := by rwa [Prod.mk.eta]
    have hsome : params[b.1]? = some b.2 := List.mk_mem_enum_iff_getElem?.mp hb2
    rcases List.getElem?_eq_some.mp hsome with ⟨hlt, hval⟩
    have := hres b.1 hlt
    rw [List.get_eq_getElem, hval] at this
    exact this
  have hscores : (params.enum.map (fun ip => res ip.1)).map scoreOf
      = (List.range params.length).map (fun j => scoreOf (res j)) := by
    rw [List.map_map]
    have h1 : (params.enum.map Prod.fst).map (fun j => scoreOf (res j))
        = (List.range params.length).map (fun j => scoreOf (res j)) := by
      rw [List.enum_map_fst]
    rw [← h1, List.map_map]
    rfl
  have hlen : ((List.range params.length).map (fun j => scoreOf (res j))).length
      = params.length := by
    rw [List.length_map, List.length_range]
  have hget : ∀ j (hj : j <
      ((List.range params.length).map (fun j => scoreOf (res j))).length),
      ((List.range params.length).map (fun j => scoreOf (res j))).get ⟨j, hj⟩
        = scoreOf (res j) := by
    intro j hj
    rw [List.get_map, List.get_range]
  have hargs : argmaxIdx ((List.range params.length).map (fun j => scoreOf (res j)))
      = some i := by
    apply argmaxIdx_eq_some _ i (by rw [hlen]; exact hi)
    · intro j hj
      rw [hget, hget]
      exact hmax j (by rw [hlen] at hj; exact hj)
    · intro j hj
      rw [hget, hget]
      exact hfirst j hj
  have hgetp : params.get? i = some p := by
    rw [List.get?_eq_get hi, hp]
  rw [grid_search, hmapeq]
  dsimp only
  rw [if_neg (by simp), hscores, hargs]
  dsimp only
  rw [hgetp]
  dsimp only
  rw [hfin]

/-- Witness for C6: parameters 1 (constantly-false) and 2 (constantly-true)
tie with score 1/2 on the demo data, and the earlier parameter 1 is selected. -/
theorem grid_search_stable_argmax_witness :
    grid_search demoModel [1, 2] demoK demoY 2 1 false demoPermSrc
      = .ok (1, (1/2, 0, 1/2, 0)) := by
  refine grid_search_stable_argmax demoModel [1, 2] demoK demoY 2 1 demoPermSrc
      (fun _ => (1/2, 0, 1/2, 0)) 0 1 (1/2, 0, 1/2, 0) ?_ (by decide) rfl
      (fun j hj => le_refl _) (fun j hj => absurd hj (Nat.not_lt_zero j))
      (eval_cf_20 2)
  intro j hj
  match j, hj with
  | 0, _ => exact eval_cf_2 0
  | 1, _ => exact eval_ct_2 1

theorem argmaxIdx_two_same {α : Type} [LinearOrder α] (x : α) :
    argmaxIdx [x, x] = some 0 := by
  simp [argmaxIdx, listMax, firstIdx, max_self]

theorem demo_grid_search_ok :
    grid_search demoModel [1, 2] demoK demoY 2 1 false demoPermSrc
      = .ok (1, (1/2, 0, 1/2, 0)) := by
  have he : (([1, 2] : List ℕ)).enum = [(0, 1), (1, 2)] := rfl
  rw [grid_search]
  simp only [he, mapExcept, eval_cf_2, eval_ct_2]
  simp only [List.map, scoreOf, argmaxIdx_two_same, List.get?, eval_cf_20,
    Bool.false_eq_true, if_false, List.length_cons, List.length_nil]

/-- C7: whenever grid_search returns a pair, its second component is exactly
the result of a fresh evaluate call on the selected configuration with fold
count 20 and the same repeats argument (and the next random draw), regardless
of the fold count used for selection. -/
theorem grid_search_final_reevaluation {P : Type} (model : P → Classifier)
    (params : List P) (K : Mat) (Y : List Bool) (folds repeats : ℕ)
    (no_perfect : Bool) (permSrc : ℕ → ℕ → List ℕ) (p : P)
    (fin : ℚ × ℝ × ℚ × ℝ)
    (h : grid_search model params K Y folds repeats no_perfect permSrc
      = .ok (p, fin)) :
    evaluate (model p) K Y 20 repeats (permSrc params.length) = .ok fin := by
  rw [grid_search] at h
  rcases hm : mapExcept
      (fun ip => evaluate (model ip.2) K Y folds repeats (permSrc ip.1))
      params.enum with e | results
  · rw [hm] at h; cases h
  rw [hm] at h
  dsimp only at h
  rcases hsel : (if no_perfect then
      argmaxIdx ((results.filter (fun r => decide (r.2.2.1 < 1))).map scoreOf)
    else argmaxIdx (results.map scoreOf)) with _ | i
  · rw [hsel] at h; cases h
  rw [hsel] at h
  dsimp only at h
  rcases hgp : params.get? i with _ | q
  · rw [hgp] at h; cases h
  rw [hgp] at h
  dsimp only at h
  rcases hev : evaluate (model q) K Y 20 repeats (permSrc params.length)
      with e | fin2
  · rw [hev] at h; cases h
  rw [hev] at h
  dsimp only at h
  cases h
  exact hev

/-- Witness for C7: on the demo data grid_search returns parameter 1 with
final tuple (1/2, 0, 1/2, 0), and that tuple is exactly the evaluate result
of parameter 1 at fold count 20 and repeats 1. -/
theorem grid_search_final_reevaluation_witness :
    grid_search demoModel [1, 2] demoK demoY 2 1 false demoPermSrc
      = .ok (1, (1/2, 0, 1/2, 0))
    ∧ evaluate (demoModel 1) demoK demoY 20 1 (demoPermSrc 2)
      = .ok (1/2, 0, 1/2, 0) :=
  ⟨demo_grid_search_ok,
   grid_search_final_reevaluation demoModel [1, 2] demoK demoY 2 1 false
     demoPermSrc 1 (1/2, 0, 1/2, 0) demo_grid_search_ok⟩

theorem mapExcept_isOk {ε β γ : Type} (f : β → Except ε γ) :
    ∀ l : List β, (∀ b ∈ l, ∃ y, f b = .ok y) → ∃ ys, mapExcept f l = .ok ys := by
  intro l
  induction l with
  | nil => intro _; exact ⟨[], rfl⟩
  | cons x xs ih =>
      intro h
      rcases h x (by simp) with ⟨y, hy⟩
      rcases ih (fun b hb => h b (by simp [hb])) with ⟨ys, hys⟩
      exact ⟨y :: ys, by simp [mapExcept, hy, hys]⟩

theorem repeatScores_ok_of_div (c : Classifier) (K : Mat) (Y : List Bool)
    (folds : ℕ) (perm : List ℕ) (hfz : folds ≠ 0)
    (hmod : K.length % folds = 0) :
    ∃ v t, repeatScores c K Y folds perm = .ok (v, t) := by
  rw [repeatScores, k_folds_indices, if_neg hfz, if_neg (by omega)]
  exact ⟨_, _, rfl⟩

theorem evaluate_ok_of_div (c : Classifier) (K : Mat) (Y : List Bool)
    (folds repeats : ℕ) (perms : ℕ → List ℕ) (hfz : folds ≠ 0)
    (hmod : K.length % folds = 0) :
    ∃ r, evaluate c K Y folds repeats perms = .ok r := by
  rcases mapExcept_isOk (fun i => repeatScores c K Y folds (perms i))
      (List.range repeats)
      (fun b _ => by
        rcases repeatScores_ok_of_div c K Y folds (perms b) hfz hmod with ⟨v, t, h⟩
        exact ⟨(v, t), h⟩) with ⟨ys, hys⟩
  rw [evaluate, hys]
  exact ⟨_, rfl⟩

theorem evaluate_error_of_not_div20 (c : Classifier) (K : Mat) (Y : List Bool)
    (repeats : ℕ) (perms : ℕ → List ℕ) (hrep : 0 < repeats)
    (h20 : K.length % 20 ≠ 0) :
    evaluate c K Y 20 repeats perms = .error assertMsg := by
  cases repeats with
  | zero => cases hrep
  | succ n =>
      have hfirst : repeatScores c K Y 20 (perms 0) = .error assertMsg := by
        rw [repeatScores, k_folds_indices, if_neg (by omega), if_pos h20]
      rw [evaluate, List.range_succ_eq_map]
      simp [mapExcept, hfirst]

/-- C10: when the kernel side length is not a multiple of 20 (but is a
multiple of the selection fold count, with a nonempty parameter list and at
least one repeat), grid_search never returns a result; with no_perfect False
the failure is exactly the assertion error raised inside k_folds_indices by
the final re-evaluation, which always uses fold count 20. -/
theorem grid_search_requires_div20 {P : Type} (model : P → Classifier)
    (params : List P) (K : Mat) (Y : List Bool) (folds repeats : ℕ)
    (no_perfect : Bool) (permSrc : ℕ → ℕ → List ℕ)
    (hne : params ≠ []) (hrep : 0 < repeats) (hfz : folds ≠ 0)
    (hfolds : K.length % folds = 0) (h20 : K.length % 20 ≠ 0) :
    (∀ q, grid_search model params K Y folds repeats no_perfect permSrc
        ≠ .ok q)
    ∧ (no_perfect = false →
        grid_search model params K Y folds repeats no_perfect permSrc
          = .error assertMsg) := by
  rcases mapExcept_isOk
      (fun ip => evaluate (model ip.2) K Y folds repeats (permSrc ip.1))
      params.enum
      (fun b _ => evaluate_ok_of_div (model b.2) K Y folds repeats
        (permSrc b.1) hfz hfolds) with ⟨results, hm⟩
  have hrlen : results.length = params.length := by
    rw [mapExcept_ok_length _ _ _ hm, List.enum_length]
  have hfinal : ∀ c : Classifier,
      evaluate c K Y 20 repeats (permSrc params.length) = .error assertMsg :=
    fun c => evaluate_error_of_not_div20 c K Y repeats _ hrep h20
  have hgetq : ∀ i, i < params.length → ∃ q, params.get? i = some q := by
    intro i hi
    exact ⟨params.get ⟨i, hi⟩, List.get?_eq_get hi⟩
  cases no_perfect with
  | false =>
      have hres_ne : results.map scoreOf ≠ [] := by
        intro hempty
        have := congrArg List.length hempty
        rw [List.length_map, hrlen] at this
        exact hne (List.length_eq_zero.mp this)
      rcases argmaxIdx_isSome _ hres_ne with ⟨i, hsel, hilt⟩
      rw [List.length_map, hrlen] at hilt
      rcases hgetq i hilt with ⟨q, hq⟩
      have hcomp : grid_search model params K Y folds repeats false permSrc
          = .error assertMsg := by
        rw [grid_search, hm]
        dsimp only
        rw [if_neg (by simp), hsel]
        dsimp only
        rw [hq]
        dsimp only
        rw [hfinal (model q)]
      refine ⟨fun q hq2 => ?_, fun _ => hcomp⟩
      rw [hcomp] at hq2
      cases hq2
  | true =>
      rcases hsel : argmaxIdx ((results.filter
          (fun r => decide (r.2.2.1 < 1))).map scoreOf) with _ | i
      · have hcomp : grid_search model params K Y folds repeats true permSrc
            = .error argmaxEmptyMsg := by
          rw [grid_search, hm]
          dsimp only
          rw [if_pos (by simp), hsel]
        refine ⟨fun q hq2 => ?_, fun hcontra => Bool.noConfusion hcontra⟩
        rw [hcomp] at hq2
        cases hq2
      · have hilt : i < params.length := by
          have := argmaxIdx_lt_length _ _ hsel
          rw [List.length_map] at this
          calc i < (results.filter (fun r => decide (r.2.2.1 < 1))).length := this
            _ ≤ results.length := List.length_filter_le _ _
            _ = params.length := hrlen
        rcases hgetq i hilt with ⟨q, hq⟩
        have hcomp : grid_search model params K Y folds repeats true permSrc
            = .error assertMsg := by
          rw [grid_search, hm]
          dsimp only
          rw [if_pos (by simp), hsel]
          dsimp only
          rw [hq]
          dsimp only
          rw [hfinal (model q)]
        refine ⟨fun q hq2 => ?_, fun hcontra => Bool.noConfusion hcontra⟩
        rw [hcomp] at hq2
        cases hq2

/-- Witness for C10: a 2-sample kernel with folds = 2 divides evenly for
selection, yet grid_search fails with the assertion error from the final
20-fold re-evaluation because 2 is not a multiple of 20. -/
theorem grid_search_requires_div20_witness :
    (([1] : List ℕ) ≠ [] ∧ 0 < 1 ∧ (2 : ℕ) ≠ 0
      ∧ ([[0, 0], [0, 0]] : Mat).length % 2 = 0
      ∧ ([[0, 0], [0, 0]] : Mat).length % 20 ≠ 0)
    ∧ grid_search demoModel [1] [[0, 0], [0, 0]] [true, false] 2 1 false
        demoPermSrc = .error assertMsg :=
  ⟨⟨by decide, by decide, by decide, by decide, by decide⟩,
   (grid_search_requires_div20 demoModel [1] [[0, 0], [0, 0]] [true, false]
     2 1 false demoPermSrc (by decide) (by decide) (by decide) (by decide)
     (by decide)).2 rfl⟩

/-- C8: precomputed_kernels is a read-through cache keyed only by name: on a
hit it returns the stored pair unchanged with zero kernel invocations, and
two successive calls with the same name return identical results, the second
performing no kernel computation. -/
theorem precomputed_kernels_cache_idempotent {δ κ : Type} (kernel1 : δ → κ)
    (kernel2 : δ → δ → κ) (name : String) (trainXs testXs : List δ)
    (cache : Cache κ) :
    (∀ v, cache.lookup name = some v →
        precomputed_kernels kernel1 kernel2 name trainXs testXs cache
          = (v, cache, 0))
    ∧ precomputed_kernels kernel1 kernel2 name trainXs testXs
        (precomputed_kernels kernel1 kernel2 name trainXs testXs cache).2.1
      = ((precomputed_kernels kernel1 kernel2 name trainXs testXs cache).1,
         (precomputed_kernels kernel1 kernel2 name trainXs testXs cache).2.1,
         0) := by
  constructor
  · intro v hv
    rw [precomputed_kernels, hv]
  · rcases hl : cache.lookup name with _ | v
    · have hrw : precomputed_kernels kernel1 kernel2 name trainXs testXs cache
          = ((trainXs.map kernel1,
              (testXs.zip trainXs).map (fun te => kernel2 te.1 te.2)),
             (name, (trainXs.map kernel1,
              (testXs.zip trainXs).map (fun te => kernel2 te.1 te.2))) :: cache,
             trainXs.length + testXs.length) := by
        rw [precomputed_kernels, hl]
      rw [hrw]
      rw [precomputed_kernels]
      simp [List.lookup]
    · have hrw : precomputed_kernels kernel1 kernel2 name trainXs testXs cache
          = (v, cache, 0) := by
        rw [precomputed_kernels, hl]
      rw [hrw]
      exact hrw

/-- Witness for C8: a one-entry cache for the name k is hit and returned
unchanged with zero kernel invocations. -/
theorem precomputed_kernels_cache_idempotent_witness :
    precomputed_kernels (fun x : ℕ => x) (fun x _ => x) "k" [5] [6]
        [("k", ([1], [2]))]
      = (([1], [2]), [("k", ([1], [2]))], 0) :=
  (precomputed_kernels_cache_idempotent (fun x : ℕ => x) (fun x _ => x) "k"
    [5] [6] [("k", ([1], [2]))]).1 ([1], [2]) (by decide)

theorem get?_enum_map {α β : Type} (f : ℕ → α → β) :
    ∀ (l : List α) (i : ℕ),
      (l.enum.map (fun p => f p.1 p.2)).get? i = (l.get? i).map (f i) := by
  intro l
  rw [List.enum]
  suffices h : ∀ (n : ℕ) (l : List α) (i : ℕ),
      ((l.enumFrom n).map (fun p => f p.1 p.2)).get? i = (l.get? i).map (f (n + i)) by
    intro i
    have := h 0 l i
    rwa [Nat.zero_add] at this
  intro n l
  induction l generalizing n with
  | nil => intro i; simp
  | cons x xs ih =>
      intro i
      cases i with
      | zero => simp [List.enumFrom]
      | succ j =>
          simp only [List.enumFrom, List.map_cons, List.get?_cons_succ]
          rw [ih (n + 1) j, show n + (j + 1) = n + 1 + j from by omega]

/-- C9: transform_kernels applies the transform, for each dataset index i
below the number of datasets of every source, to i together with the i-th
train kernels of all sources, and independently to i with the i-th test
kernels of all sources. -/
theorem transform_kernels_pointwise {κ : Type} [Inhabited κ]
    (kernels : List (List κ × List κ)) (transform : ℕ → List κ → κ) (i : ℕ)
    (h1 : i < minLen (kernels.map Prod.fst))
    (h2 : i < minLen (kernels.map Prod.snd)) :
    (transform_kernels kernels transform).1.get? i
      = some (transform i (kernels.map (fun p => p.1.getD i default)))
    ∧ (transform_kernels kernels transform).2.get? i
      = some (transform i (kernels.map (fun p => p.2.getD i default))) := by
  constructor
  · rw [transform_kernels]
    dsimp only
    rw [get?_enum_map, zipAll]
    rw [List.get?_map, List.get?_range h1]
    dsimp only [Option.map_some']
    rw [List.map_map]
    rfl
  · rw [transform_kernels]
    dsimp only
    rw [get?_enum_map, zipAll]
    rw [List.get?_map, List.get?_range h2]
    dsimp only [Option.map_some']
    rw [List.map_map]
    rfl

/-- Witness for C9: two single-dataset kernel sources combined with an
elementwise-sum transform yield the elementwise sums of the train kernels and
of the test kernels. -/
theorem transform_kernels_pointwise_witness :
    (transform_kernels
        [([[[1, 2], [3, 4]]], [[[5, 6]]]), ([[[10, 20], [30, 40]]], [[[7, 8]]])]
        (fun _ ks => matSum ks)).1.get? 0
      = some [[11, 22], [33, 44]]
    ∧ (transform_kernels
        [([[[1, 2], [3, 4]]], [[[5, 6]]]), ([[[10, 20], [30, 40]]], [[[7, 8]]])]
        (fun _ ks => matSum ks)).2.get? 0
      = some [[12, 14]] := by
  have h := transform_kernels_pointwise
      [([[[1, 2], [3, 4]]], [[[5, 6]]]), ([[[10, 20], [30, 40]]], [[[7, 8]]])]
      (fun _ ks => matSum ks) 0 (by decide) (by decide)
  refine ⟨h.1.trans ?_, h.2.trans ?_⟩
  · decide
  · decide
